import Mathlib

/-!
Shallow embedding of the keyed-sequence reconciliation engine of
`src/views/dyn_stack.rs` (the `diff` / `apply_diff` pair and their helpers)
and of the keyboard-navigation branches of `src/views/list.rs`.

Modelling conventions:
* An `FxIndexSet<K>` is modelled as a `List K` together with a `Nodup`
  hypothesis where the claims require key uniqueness; iteration order of the
  index set is the list order, and `IndexSet::difference` preserves the order
  of the left operand, hence is `List.filter`.
* `usize` arithmetic is `Nat` arithmetic; the two wrapping operations used by
  the source (`wrapping_add`, `wrapping_sub` on `normalized_idx`) are taken
  modulo `2 ^ 64` explicitly.
* A child slot `Option<(V, Scope)>` is an `Option V`; the view value stands
  for the slot's identity.  Disposal (`app_state.remove_view` + `scope
  .dispose`) is modelled by returning the removed value.
* Fallible operations (out-of-bounds indexing, `Option::unwrap`) return
  `Option`, with `none` for a panic.
-/

set_option autoImplicit false

universe u v

variable {K : Type u} {T : Type u} {V : Type v}

/-- Size of the `usize` value space on the 64-bit targets the crate builds
for; `normalized_idx` arithmetic in `diff` wraps at this modulus. -/
def usizeSize : Nat := 2 ^ 64

/-- Rust `usize::wrapping_add(n, 1)`. -/
def wrapAdd1 (n : Nat) : Nat := (n + 1) % usizeSize

/-- Rust `usize::wrapping_sub(n, 1)`. -/
def wrapSub1 (n : Nat) : Nat := (n + (usizeSize - 1)) % usizeSize

/-- The index component of `IndexSet::get_full(k)`: the position of `k` in
the set's iteration order, `none` when absent. -/
def getFull [DecidableEq K] : List K → K → Option Nat
  | [], _ => none
  | a :: rest, k => if a = k then some 0 else (getFull rest k).map (· + 1)

/-- Rust `IndexSet::difference`: elements of `a` not in `b`, in `a`'s order. -/
def difference [DecidableEq K] (a b : List K) : List K :=
  a.filter (fun x => decide (x ∉ b))

/-- The removed-index list of `diff`: for each key of `from − to` (in `from`
order), its index in `from`.  The `unwrap` of `get_full` is `getD 0`; the
default is never used because the key is a member. -/
def diffRemoved [DecidableEq K] (fromKeys toKeys : List K) : List Nat :=
  (difference fromKeys toKeys).map (fun k => (getFull fromKeys k).getD 0)

/-- The added-index list of `diff`: for each key of `to − from` (in `to`
order), its index in `to`. -/
def diffAdded [DecidableEq K] (fromKeys toKeys : List K) : List Nat :=
  (difference toKeys fromKeys).map (fun k => (getFull toKeys k).getD 0)

/-- The mutable state threaded through the move-detection loop of `diff`:
`normalized` is `normalized_idx`, the two cursor/rest pairs are the `added`
and `removed` iterators (current peeked index plus remaining indices), and
`moves` is `move_cmds`. -/
structure MoveState where
  normalized : Nat
  addedIdx : Option Nat
  addedRest : List Nat
  removedIdx : Option Nat
  removedRest : List Nat
  moves : List (Nat × Nat)
deriving DecidableEq, Repr

/-- The two cursor blocks at the top of the loop body of `diff`: consume an
upcoming insertion index equal to `idx` (decrementing `normalized` only when
a further insertion exists), then consume an upcoming removal index equal to
`idx` (always incrementing `normalized`). -/
def diffStepCursors (st : MoveState) (idx : Nat) : MoveState :=
  let st1 :=
    match st.addedIdx with
    | some ai =>
      if ai = idx then
        match st.addedRest with
        | next :: rest =>
          { st with
            addedIdx := some next
            addedRest := rest
            normalized := wrapSub1 st.normalized }
        | [] => st
      else st
    | none => st
  match st1.removedIdx with
  | some ri =>
    if ri = idx then
      let st2 := { st1 with normalized := wrapAdd1 st1.normalized }
      match st2.removedRest with
      | next :: rest => { st2 with removedIdx := some next, removedRest := rest }
      | [] => st2
    else st1
  | none => st1

/-- The move-emission block of the loop body of `diff`: a key present in the
old set produces `DiffOpMove { from, to }` unless its old index equals both
`normalized_idx` and the loop index. -/
def diffStepMove [DecidableEq K] (fromKeys : List K) (st : MoveState)
    (idx : Nat) (k : K) : MoveState :=
  match getFull fromKeys k with
  | some fi =>
    if fi ≠ st.normalized ∨ fi ≠ idx then
      { st with moves := st.moves ++ [(fi, idx)] }
    else st
  | none => st

/-- One full iteration of the move-detection loop of `diff`, including the
trailing `normalized_idx = normalized_idx.wrapping_add(1)`. -/
def diffStep [DecidableEq K] (fromKeys : List K) (st : MoveState)
    (p : Nat × K) : MoveState :=
  let st2 := diffStepCursors st p.1
  let st3 := diffStepMove fromKeys st2 p.1 p.2
  { st3 with normalized := wrapAdd1 st3.normalized }

/-- Initial loop state of `diff`: `normalized_idx = 0`, both cursors peeked
from their index iterators, no moves yet. -/
def diffInitState [DecidableEq K] (fromKeys toKeys : List K) : MoveState :=
  { normalized := 0
    addedIdx := (diffAdded fromKeys toKeys).head?
    addedRest := (diffAdded fromKeys toKeys).tail
    removedIdx := (diffRemoved fromKeys toKeys).head?
    removedRest := (diffRemoved fromKeys toKeys).tail
    moves := [] }

/-- Folding the loop body over an enumerated key sequence. -/
def diffLoop [DecidableEq K] (fromKeys : List K) (st : MoveState)
    (ps : List (Nat × K)) : MoveState :=
  ps.foldl (diffStep fromKeys) st

/-- The `move_cmds` list of `diff from to`: the moves accumulated by the loop over
`to.iter().enumerate()`. -/
def diffMoves [DecidableEq K] (fromKeys toKeys : List K) : List (Nat × Nat) :=
  (diffLoop fromKeys (diffInitState fromKeys toKeys) toKeys.enum).moves

/-- The edit script `Diff<V>` of `dyn_stack.rs`.  `removed` holds the `at`
fields of the `DiffOpRemove`s, `moved` the `(from, to)` fields of the
`DiffOpMove`s, `added` the `(at, view)` fields of the `DiffOpAdd`s, and
`clear` the discard-everything flag. -/
structure Diff (T : Type u) where
  removed : List Nat
  moved : List (Nat × Nat)
  added : List (Nat × Option T)
  clear : Bool
deriving DecidableEq, Repr

instance {T : Type u} : Inhabited (Diff T) := ⟨⟨[], [], [], false⟩⟩

/-- Rust `Diff::is_empty`. -/
def Diff.isEmpty {T : Type u} (d : Diff T) : Bool :=
  d.removed.isEmpty && d.moved.isEmpty && d.added.isEmpty && !d.clear

/-- The pure diff engine `diff(from, to)` of `dyn_stack.rs`, lines 182-262:
empty/empty gives the empty diff, empty `to` gives only the discard flag;
otherwise removals, additions and moves are computed and the final check
collapses an everything-removed, move-free diff onto the discard flag
(without touching the `removed` list). -/
def diff [DecidableEq K] (fromKeys toKeys : List K) : Diff T :=
  if fromKeys.isEmpty && toKeys.isEmpty then
    ⟨[], [], [], false⟩
  else if toKeys.isEmpty then
    ⟨[], [], [], true⟩
  else
    let removedCmds := diffRemoved fromKeys toKeys
    let addedCmds :=
      (diffAdded fromKeys toKeys).map (fun i => (i, (none : Option T)))
    let moveCmds := diffMoves fromKeys toKeys
    let d : Diff T := ⟨removedCmds, moveCmds, addedCmds, false⟩
    if !fromKeys.isEmpty && !toKeys.isEmpty &&
        d.removed.length == fromKeys.length && d.moved.isEmpty then
      { d with clear := true }
    else
      d

/-- The rehydration step of the `create_effect` closure in `dyn_stack`: each
`DiffOpAdd` gets `view = Some(items[added.at])`, the item at the same
position of the freshly evaluated item list. -/
def rehydrate {T : Type u} (items : List T) (d : Diff T) : Diff T :=
  { d with added := d.added.map (fun p => (p.1, items[p.1]?)) }

/-- Rust `remove_index`: take the slot at `index`; an empty slot short-circuits
via `?` with the array unchanged and nothing disposed; an occupied slot is
emptied and its contents disposed (returned here).  Out-of-bounds indexing
is a panic, modelled by `none`. -/
def removeIndex (children : List (Option V)) (index : Nat) :
    Option (List (Option V) × Option V) :=
  match children[index]? with
  | none => none
  | some none => some (children, none)
  | some (some v) => some (children.set index none, some v)

/-- A removal pass of `apply_diff`: `remove_index` at each listed index in
order, discarding the per-slot results. -/
def removePass (removed : List Nat) (children : List (Option V)) :
    Option (List (Option V)) :=
  match removed with
  | [] => some children
  | i :: rest =>
    match removeIndex children i with
    | none => none
    | some (c, _) => removePass rest c

/-- The move pass of `apply_diff`: `children[from].take().unwrap()` is
staged as `(to, item)` onto `items_to_move`; an empty or out-of-bounds
source slot is a panic (`none`). -/
def movePassAux (moved : List (Nat × Nat)) (children : List (Option V))
    (staged : List (Nat × V)) : Option (List (Option V) × List (Nat × V)) :=
  match moved with
  | [] => some (children, staged)
  | m :: rest =>
    match children[m.1]? with
    | some (some v) => movePassAux rest (children.set m.1 none) (staged ++ [(m.2, v)])
    | _ => none

/-- The move pass started with an empty `items_to_move` holding list. -/
def movePass (moved : List (Nat × Nat)) (children : List (Option V)) :
    Option (List (Option V) × List (Nat × V)) :=
  movePassAux moved children []

/-- An index-assignment pass (`children[i] = w`): used by the add pass and
by the deferred write-back of staged moves.  Out-of-bounds assignment is a
panic (`none`). -/
def setSlots (ps : List (Nat × Option V)) (children : List (Option V)) :
    Option (List (Option V)) :=
  match ps with
  | [] => some children
  | p :: rest =>
    if p.1 < children.length then
      setSlots rest (children.set p.1 p.2)
    else
      none

/-- The resize step at the top of `apply_diff` (lines 285-291): only when
`added.len().checked_sub(removed.len())` is `Some` — that is, when at least
as many slots are inserted as removed — is the array extended to
`len + added − removed` with empty slots. -/
def resizeStage {T : Type u} (d : Diff T) (children : List (Option V)) :
    List (Option V) :=
  if d.removed.length ≤ d.added.length then
    children ++ List.replicate (d.added.length - d.removed.length) none
  else
    children

/-- The clear step of `apply_diff`: when the discard flag is set,
`remove_index` runs on every index of the (resized) array and
`diff.removed` is cleared; otherwise the removal list passes through. -/
def clearStage {T : Type u} (d : Diff T) (children : List (Option V)) :
    Option (List (Option V) × List Nat) :=
  if d.clear then
    match removePass (List.range children.length) children with
    | some c => some (c, [])
    | none => none
  else
    some (children, d.removed)

/-- The state of the child array after the clear and removal passes of
`apply_diff`, before any move is read. -/
def postRemoval {T : Type u} (d : Diff T) (children : List (Option V)) :
    Option (List (Option V)) :=
  match clearStage d children with
  | none => none
  | some (c, removed) => removePass removed c

/-- Rust `apply_diff` (lines 275-334): resize, then clear, removals, staged
moves, additions (`children[at] = view.map(view_fn)`), deferred write-back
of the staged moves, and the final compaction `retain(|c| c.is_some())`. -/
def applyDiff {T : Type u} (viewFn : T → V) (d : Diff T)
    (children : List (Option V)) : Option (List (Option V)) :=
  let c0 := resizeStage d children
  match postRemoval d c0 with
  | none => none
  | some c1 =>
    match movePass d.moved c1 with
    | none => none
    | some (c2, staged) =>
      match setSlots (d.added.map (fun p => (p.1, p.2.map viewFn))) c2 with
      | none => none
      | some c3 =>
        match setSlots (staged.map (fun p => (p.1, some p.2))) c3 with
        | none => none
        | some c4 => some (c4.filter (fun c => c.isSome))

/-- The four keyboard keys handled by the `list` key-down listener. -/
inductive ListKey where
  | home
  | endKey
  | arrowUp
  | arrowDown
deriving DecidableEq, Repr

/-- The selection update performed by the `list` key-down handler of
`list.rs` (lines 77-135) for each handled key, as a function of the child
count `length` and the current selection; branches that do not call
`selection.set` leave the selection unchanged. -/
def listKeyDown (length : Nat) (sel : Option Nat) : ListKey → Option Nat
  | .home => if length > 0 then some 0 else sel
  | .endKey => if length > 0 then some (length - 1) else sel
  | .arrowUp =>
    match sel with
    | some i => if i > 0 then some (i - 1) else some i
    | none => if length > 0 then some (length - 1) else none
  | .arrowDown =>
    match sel with
    | some i => if i < length - 1 then some (i + 1) else some i
    | none => if length > 0 then some 0 else none


/-! ### Properties of `getFull` and `difference` -/

theorem getFull_eq_some {K : Type u} [DecidableEq K] {l : List K} {k : K} {i : Nat}
    (h : getFull l k = some i) : l[i]? = some k := by
  induction l generalizing i with
  | nil => simp [getFull] at h
  | cons a rest ih =>
    by_cases hak : a = k
    · simp [getFull, hak] at h
      subst h
      simp [hak]
    · simp [getFull, hak] at h
      obtain ⟨j, hj, hji⟩ := h
      subst hji
      simpa using ih hj

theorem getFull_of_getElem {K : Type u} [DecidableEq K] {l : List K} (hl : l.Nodup)
    {i : Nat} {k : K} (h : l[i]? = some k) : getFull l k = some i := by
  induction l generalizing i with
  | nil => simp at h
  | cons a rest ih =>
    rcases i with _ | j
    · simp at h
      simp [getFull, h]
    · simp at h
      have hmem : k ∈ rest := by
        rw [List.mem_iff_getElem?]
        exact ⟨j, h⟩
      have hak : a ≠ k := by
        intro he
        exact (List.nodup_cons.1 hl).1 (he ▸ hmem)
      simp [getFull, hak, ih (List.nodup_cons.1 hl).2 h]

theorem getFull_isSome_of_mem {K : Type u} [DecidableEq K] {l : List K} {k : K}
    (h : k ∈ l) : ∃ i, getFull l k = some i := by
  induction l with
  | nil => simp at h
  | cons a rest ih =>
    by_cases hak : a = k
    · exact ⟨0, by simp [getFull, hak]⟩
    · rcases List.mem_cons.1 h with he | hm
      · exact absurd he.symm hak
      · obtain ⟨i, hi⟩ := ih hm
        exact ⟨i + 1, by simp [getFull, hak, hi]⟩

theorem mem_difference {K : Type u} [DecidableEq K] {a b : List K} {x : K} :
    x ∈ difference a b ↔ x ∈ a ∧ x ∉ b := by
  simp [difference, List.mem_filter]

theorem nodup_difference {K : Type u} [DecidableEq K] {a : List K} (b : List K)
    (ha : a.Nodup) : (difference a b).Nodup :=
  ha.filter _

/-! ### Membership characterization of the removed/added index lists -/

theorem mem_diffRemoved {K : Type u} [DecidableEq K] {fromKeys toKeys : List K}
    (hf : fromKeys.Nodup) {i : Nat} :
    i ∈ diffRemoved fromKeys toKeys ↔
      ∃ k, fromKeys[i]? = some k ∧ k ∉ toKeys := by
  constructor
  · intro h
    obtain ⟨k, hk, hik⟩ := List.mem_map.1 h
    obtain ⟨hkf, hkt⟩ := mem_difference.1 hk
    obtain ⟨j, hj⟩ := getFull_isSome_of_mem hkf
    rw [hj] at hik
    simp at hik
    subst hik
    exact ⟨k, getFull_eq_some hj, hkt⟩
  · rintro ⟨k, hk, hkt⟩
    have hkf : k ∈ fromKeys := by
      rw [List.mem_iff_getElem?]; exact ⟨i, hk⟩
    refine List.mem_map.2 ⟨k, mem_difference.2 ⟨hkf, hkt⟩, ?_⟩
    rw [getFull_of_getElem hf hk]
    rfl

theorem nodup_diffRemoved {K : Type u} [DecidableEq K] {fromKeys toKeys : List K}
    (hf : fromKeys.Nodup) : (diffRemoved fromKeys toKeys).Nodup := by
  refine (nodup_difference toKeys hf).map_on ?_
  intro x hx y hy hxy
  obtain ⟨ix, hix⟩ := getFull_isSome_of_mem (mem_difference.1 hx).1
  obtain ⟨iy, hiy⟩ := getFull_isSome_of_mem (mem_difference.1 hy).1
  rw [hix, hiy] at hxy
  simp at hxy
  subst hxy
  have := (getFull_eq_some hix).symm.trans (getFull_eq_some hiy)
  simpa using this

theorem mem_diffAdded {K : Type u} [DecidableEq K] {fromKeys toKeys : List K}
    (ht : toKeys.Nodup) {i : Nat} :
    i ∈ diffAdded fromKeys toKeys ↔
      ∃ k, toKeys[i]? = some k ∧ k ∉ fromKeys :=
  mem_diffRemoved ht

theorem nodup_diffAdded {K : Type u} [DecidableEq K] {fromKeys toKeys : List K}
    (ht : toKeys.Nodup) : (diffAdded fromKeys toKeys).Nodup :=
  nodup_diffRemoved ht

/-! ### Specifications of the `apply_diff` passes -/

theorem set_getElem_self {V : Type v} {cs : List (Option V)} {i : Nat} {a : Option V}
    (h : cs[i]? = some a) : cs.set i a = cs := by
  apply List.ext_getElem?
  intro n
  by_cases hn : i = n
  · subst hn
    rw [List.getElem?_set_self' ]
    rw [h]
    rfl
  · rw [List.getElem?_set_ne hn]

theorem removeIndex_of_lt {V : Type v} {cs : List (Option V)} {i : Nat}
    (h : i < cs.length) : ∃ r, removeIndex cs i = some (cs.set i none, r) := by
  have hc : cs[i]? = some cs[i] := List.getElem?_eq_getElem h
  match hv : cs[i] with
  | none =>
    refine ⟨none, ?_⟩
    rw [hv] at hc
    simp only [removeIndex, hc]
    rw [set_getElem_self hc]
  | some v =>
    refine ⟨some v, ?_⟩
    rw [hv] at hc
    simp only [removeIndex, hc]

theorem removePass_spec {V : Type v} :
    ∀ (removed : List Nat) (cs : List (Option V)),
      (∀ r ∈ removed, r < cs.length) →
      ∃ cs', removePass removed cs = some cs' ∧
        cs'.length = cs.length ∧
        (∀ i ∈ removed, cs'[i]? = some none) ∧
        (∀ i, i ∉ removed → cs'[i]? = cs[i]?) := by
  intro removed
  induction removed with
  | nil =>
    intro cs _
    exact ⟨cs, rfl, rfl, by simp, fun i _ => rfl⟩
  | cons r rest ih =>
    intro cs hb
    have hr : r < cs.length := hb r (by simp)
    obtain ⟨d, hd⟩ := removeIndex_of_lt hr
    have hb' : ∀ i ∈ rest, i < (cs.set r none).length := by
      intro i hi
      rw [List.length_set]
      exact hb i (by simp [hi])
    obtain ⟨cs', hc', hlen, hin, hout⟩ := ih (cs.set r none) hb'
    refine ⟨cs', ?_, by rw [hlen, List.length_set], ?_, ?_⟩
    · simp only [removePass, hd, hc']
    · intro i hi
      rcases List.mem_cons.1 hi with he | hm
      · subst he
        by_cases hir : i ∈ rest
        · exact hin i hir
        · rw [hout i hir]
          exact List.getElem?_set_eq hr
      · exact hin i hm
    · intro i hi
      have hir : i ∉ rest := fun hm => hi (by simp [hm])
      have hine : r ≠ i := fun he => hi (by simp [he])
      rw [hout i hir, List.getElem?_set_ne hine]

theorem movePassAux_spec {V : Type v} (val : Nat × Nat → V) :
    ∀ (moved : List (Nat × Nat)) (cs : List (Option V)) (staged : List (Nat × V)),
      (moved.map Prod.fst).Nodup →
      (∀ m ∈ moved, cs[m.1]? = some (some (val m))) →
      ∃ cs', movePassAux moved cs staged =
          some (cs', staged ++ moved.map (fun m => (m.2, val m))) ∧
        cs'.length = cs.length ∧
        (∀ i, i ∈ moved.map Prod.fst → cs'[i]? = some none) ∧
        (∀ i, i ∉ moved.map Prod.fst → cs'[i]? = cs[i]?) := by
  intro moved
  induction moved with
  | nil =>
    intro cs staged _ _
    exact ⟨cs, by simp [movePassAux], rfl, by simp, fun i _ => rfl⟩
  | cons m rest ih =>
    intro cs staged hnd hv
    have hm : cs[m.1]? = some (some (val m)) := hv m (by simp)
    have hnd' : (rest.map Prod.fst).Nodup := (List.nodup_cons.1 (by simpa using hnd)).2
    have hfst : m.1 ∉ rest.map Prod.fst := (List.nodup_cons.1 (by simpa using hnd)).1
    have hv' : ∀ m' ∈ rest, (cs.set m.1 none)[m'.1]? = some (some (val m')) := by
      intro m' hm'
      have hne : m.1 ≠ m'.1 := by
        intro he
        exact hfst (he ▸ List.mem_map.2 ⟨m', hm', rfl⟩)
      rw [List.getElem?_set_ne hne]
      exact hv m' (by simp [hm'])
    obtain ⟨cs', hc', hlen, hin, hout⟩ :=
      ih (cs.set m.1 none) (staged ++ [(m.2, val m)]) hnd' hv'
    refine ⟨cs', ?_, by rw [hlen, List.length_set], ?_, ?_⟩
    · simp only [movePassAux, hm, hc', List.map_cons, List.append_assoc,
        List.singleton_append]
    · intro i hi
      rw [List.map_cons] at hi
      rcases List.mem_cons.1 hi with he | hm'
      · subst he
        by_cases hir : m.1 ∈ rest.map Prod.fst
        · exact hin m.1 hir
        · rw [hout m.1 hir]
          exact List.getElem?_set_eq (by
            have := List.getElem?_eq_some.1 hm
            exact this.1)
      · exact hin i hm'
    · intro i hi
      have hir : i ∉ rest.map Prod.fst := fun hmm => hi (by simp [hmm])
      have hine : m.1 ≠ i := fun he => hi (by simp [he])
      rw [hout i hir, List.getElem?_set_ne hine]

theorem setSlots_spec {V : Type v} :
    ∀ (ps : List (Nat × Option V)) (cs : List (Option V)),
      (∀ p ∈ ps, p.1 < cs.length) →
      (ps.map Prod.fst).Nodup →
      ∃ cs', setSlots ps cs = some cs' ∧
        cs'.length = cs.length ∧
        (∀ p ∈ ps, cs'[p.1]? = some p.2) ∧
        (∀ i, i ∉ ps.map Prod.fst → cs'[i]? = cs[i]?) := by
  intro ps
  induction ps with
  | nil =>
    intro cs _ _
    exact ⟨cs, rfl, rfl, by simp, fun i _ => rfl⟩
  | cons p rest ih =>
    intro cs hb hnd
    have hp : p.1 < cs.length := hb p (by simp)
    have hnd' : (rest.map Prod.fst).Nodup := (List.nodup_cons.1 (by simpa using hnd)).2
    have hfst : p.1 ∉ rest.map Prod.fst := (List.nodup_cons.1 (by simpa using hnd)).1
    have hb' : ∀ q ∈ rest, q.1 < (cs.set p.1 p.2).length := by
      intro q hq
      rw [List.length_set]
      exact hb q (by simp [hq])
    obtain ⟨cs', hc', hlen, hin, hout⟩ := ih (cs.set p.1 p.2) hb' hnd'
    refine ⟨cs', ?_, by rw [hlen, List.length_set], ?_, ?_⟩
    · simp only [setSlots, hp, if_pos]
      exact hc'
    · intro q hq
      rcases List.mem_cons.1 hq with he | hm
      · subst he
        have hqr : q.1 ∉ rest.map Prod.fst := hfst
        rw [hout q.1 hqr]
        exact List.getElem?_set_eq hp
      · exact hin q hm
    · intro i hi
      have hir : i ∉ rest.map Prod.fst := fun hmm => hi (by simp [hmm])
      have hine : p.1 ≠ i := fun he => hi (by simp [he])
      rw [hout i hir, List.getElem?_set_ne hine]

/-! ### Characterization of the moves emitted by the `diff` loop -/

theorem diffStepCursors_moves (st : MoveState) (idx : Nat) :
    (diffStepCursors st idx).moves = st.moves := by
  unfold diffStepCursors
  rcases st with ⟨n, ai, ar, ri, rr, mv⟩
  rcases ai with _ | a <;> rcases ri with _ | r <;> dsimp only <;>
    repeat' first
    | rfl
    | split

theorem diffStep_moves {K : Type u} [DecidableEq K] (fromKeys : List K)
    (st : MoveState) (idx : Nat) (k : K) :
    ((diffStep fromKeys st (idx, k)).moves = st.moves ∧
      ∀ fi, getFull fromKeys k = some fi → fi = idx) ∨
    (∃ fi, getFull fromKeys k = some fi ∧
      (diffStep fromKeys st (idx, k)).moves = st.moves ++ [(fi, idx)]) := by
  have hcur := diffStepCursors_moves st idx
  unfold diffStep diffStepMove
  dsimp only
  cases hg : getFull fromKeys k with
  | none =>
    left
    refine ⟨by simpa using hcur, ?_⟩
    intro fi hfi
    simp at hfi
  | some fi =>
    dsimp only
    by_cases hcond : fi ≠ (diffStepCursors st idx).normalized ∨ fi ≠ idx
    · right
      refine ⟨fi, rfl, ?_⟩
      rw [if_pos hcond]
      simp [hcur]
    · left
      rw [if_neg hcond]
      push_neg at hcond
      refine ⟨by simpa using hcur, ?_⟩
      intro fi' hfi'
      have hfi2 : fi = fi' := by simpa using hfi'
      rw [hfi2] at hcond
      exact hcond.2

theorem diffLoop_spec {K : Type u} [DecidableEq K] (fromKeys : List K) :
    ∀ (rest : List K) (off : Nat) (st : MoveState),
      (∃ suf, (diffLoop fromKeys st (List.enumFrom off rest)).moves = st.moves ++ suf ∧
        ∀ p ∈ suf, ∃ j k, rest[j]? = some k ∧ p.2 = off + j ∧
          getFull fromKeys k = some p.1) ∧
      (∀ (j : Nat) (k : K) (fi : Nat), rest[j]? = some k →
        getFull fromKeys k = some fi →
        (fi, off + j) ∈ (diffLoop fromKeys st (List.enumFrom off rest)).moves ∨
          fi = off + j) := by
  intro rest
  induction rest with
  | nil =>
    intro off st
    constructor
    · exact ⟨[], by simp [diffLoop], by simp⟩
    · intro j k fi hj
      simp at hj
  | cons k0 rest ih =>
    intro off st
    have hunf : diffLoop fromKeys st (List.enumFrom off (k0 :: rest)) =
        diffLoop fromKeys (diffStep fromKeys st (off, k0))
          (List.enumFrom (off + 1) rest) := by
      rw [List.enumFrom_cons]
      rfl
    obtain ⟨⟨suf1, hsuf1, hmem1⟩, hb1⟩ := ih (off + 1) (diffStep fromKeys st (off, k0))
    rcases diffStep_moves fromKeys st off k0 with ⟨heq, himp⟩ | ⟨fi0, hfi0, heq⟩
    · constructor
      · refine ⟨suf1, ?_, ?_⟩
        · rw [hunf, hsuf1, heq]
        · intro p hp
          obtain ⟨j, k, hjk, hp2, hgf⟩ := hmem1 p hp
          exact ⟨j + 1, k, by simpa using hjk, by omega, hgf⟩
      · intro j k fi hj hgf
        rcases j with _ | j'
        · simp at hj
          subst hj
          right
          have := himp fi hgf
          omega
        · have hj' : rest[j']? = some k := by simpa using hj
          rcases hb1 j' k fi hj' hgf with hmem | heqi
          · left
            rw [hunf]
            have : off + (j' + 1) = off + 1 + j' := by omega
            rw [this]
            exact hmem
          · right
            omega
    · constructor
      · refine ⟨(fi0, off) :: suf1, ?_, ?_⟩
        · rw [hunf, hsuf1, heq, List.append_assoc]
          rfl
        · intro p hp
          rcases List.mem_cons.1 hp with he | hm
          · subst he
            exact ⟨0, k0, by simp, by simp, hfi0⟩
          · obtain ⟨j, k, hjk, hp2, hgf⟩ := hmem1 p hm
            exact ⟨j + 1, k, by simpa using hjk, by omega, hgf⟩
      · intro j k fi hj hgf
        rcases j with _ | j'
        · simp at hj
          subst hj
          rw [hfi0] at hgf
          cases hgf
          left
          rw [hunf, hsuf1, heq]
          simp
        · have hj' : rest[j']? = some k := by simpa using hj
          rcases hb1 j' k fi hj' hgf with hmem | heqi
          · left
            rw [hunf]
            have : off + (j' + 1) = off + 1 + j' := by omega
            rw [this]
            exact hmem
          · right
            omega

theorem diffLoop_nodup_snd {K : Type u} [DecidableEq K] (fromKeys : List K) :
    ∀ (rest : List K) (off : Nat) (st : MoveState),
      (st.moves.map Prod.snd).Nodup →
      (∀ p ∈ st.moves, p.2 < off) →
      ((diffLoop fromKeys st (List.enumFrom off rest)).moves.map Prod.snd).Nodup ∧
      (∀ p ∈ (diffLoop fromKeys st (List.enumFrom off rest)).moves,
        p.2 < off + rest.length) := by
  intro rest
  induction rest with
  | nil =>
    intro off st hnd hb
    have hred : diffLoop fromKeys st (List.enumFrom off []) = st := rfl
    rw [hred]
    refine ⟨hnd, ?_⟩
    intro p hp
    have := hb p hp
    omega
  | cons k0 rest ih =>
    intro off st hnd hb
    have hunf : diffLoop fromKeys st (List.enumFrom off (k0 :: rest)) =
        diffLoop fromKeys (diffStep fromKeys st (off, k0))
          (List.enumFrom (off + 1) rest) := by
      rw [List.enumFrom_cons]
      rfl
    have hstep : (diffStep fromKeys st (off, k0)).moves = st.moves ∨
        ∃ fi0, (diffStep fromKeys st (off, k0)).moves = st.moves ++ [(fi0, off)] := by
      rcases diffStep_moves fromKeys st off k0 with ⟨heq, _⟩ | ⟨fi0, _, heq⟩
      · exact Or.inl heq
      · exact Or.inr ⟨fi0, heq⟩
    have hlift : ((diffStep fromKeys st (off, k0)).moves.map Prod.snd).Nodup ∧
        (∀ p ∈ (diffStep fromKeys st (off, k0)).moves, p.2 < off + 1) := by
      rcases hstep with heq | ⟨fi0, heq⟩
      · rw [heq]
        exact ⟨hnd, fun p hp => by have := hb p hp; omega⟩
      · rw [heq]
        constructor
        · rw [List.map_append]
          rw [List.nodup_append]
          refine ⟨hnd, by simp, ?_⟩
          intro x hx hx'
          simp at hx'
          obtain ⟨p, hp, hpx⟩ := List.mem_map.1 hx
          have := hb p hp
          omega
        · intro p hp
          rcases List.mem_append.1 hp with hm | hm
          · have := hb p hm
            omega
          · simp only [List.mem_singleton] at hm
            subst hm
            dsimp only
            omega
    obtain ⟨h1, h2⟩ := ih (off + 1) (diffStep fromKeys st (off, k0)) hlift.1 hlift.2
    rw [hunf]
    refine ⟨h1, ?_⟩
    intro p hp
    have := h2 p hp
    simp only [List.length_cons]
    omega

theorem diffMoves_mem {K : Type u} [DecidableEq K] {fromKeys toKeys : List K}
    {p : Nat × Nat} (hp : p ∈ diffMoves fromKeys toKeys) :
    ∃ k, toKeys[p.2]? = some k ∧ getFull fromKeys k = some p.1 := by
  obtain ⟨⟨suf, hsuf, hmem⟩, _⟩ :=
    diffLoop_spec fromKeys toKeys 0 (diffInitState fromKeys toKeys)
  unfold diffMoves at hp
  rw [List.enum_eq_enumFrom] at hp
  rw [hsuf] at hp
  simp only [diffInitState, List.nil_append] at hp
  obtain ⟨j, k, hjk, hp2, hgf⟩ := hmem p hp
  refine ⟨k, ?_, hgf⟩
  rw [hp2]
  simpa using hjk

theorem diffMoves_total {K : Type u} [DecidableEq K] {fromKeys toKeys : List K}
    {j : Nat} {k : K} {fi : Nat} (hj : toKeys[j]? = some k)
    (hgf : getFull fromKeys k = some fi) :
    (fi, j) ∈ diffMoves fromKeys toKeys ∨ fi = j := by
  obtain ⟨_, hb⟩ :=
    diffLoop_spec fromKeys toKeys 0 (diffInitState fromKeys toKeys)
  have := hb j k fi hj hgf
  unfold diffMoves
  rw [List.enum_eq_enumFrom]
  simpa using this

theorem diffMoves_nodup_snd {K : Type u} [DecidableEq K]
    (fromKeys toKeys : List K) :
    ((diffMoves fromKeys toKeys).map Prod.snd).Nodup := by
  obtain ⟨h1, _⟩ :=
    diffLoop_nodup_snd fromKeys toKeys 0 (diffInitState fromKeys toKeys)
      (by simp [diffInitState]) (by simp [diffInitState])
  unfold diffMoves
  rw [List.enum_eq_enumFrom]
  exact h1

theorem diffMoves_nodup_fst {K : Type u} [DecidableEq K]
    {fromKeys toKeys : List K} (ht : toKeys.Nodup) :
    ((diffMoves fromKeys toKeys).map Prod.fst).Nodup := by
  have hnd : (diffMoves fromKeys toKeys).Nodup :=
    List.Nodup.of_map Prod.snd (diffMoves_nodup_snd fromKeys toKeys)
  refine hnd.map_on ?_
  intro x hx y hy hxy
  obtain ⟨kx, hkx, hgx⟩ := diffMoves_mem hx
  obtain ⟨ky, hky, hgy⟩ := diffMoves_mem hy
  have hfx := getFull_eq_some hgx
  have hfy := getFull_eq_some hgy
  rw [hxy] at hfx
  rw [hfy] at hfx
  have hk : ky = kx := by simpa using hfx
  rw [hk] at hky
  have hlt : x.2 < toKeys.length := (List.getElem?_eq_some.1 hkx).1
  have h2 : x.2 = y.2 := List.getElem?_inj hlt ht (hkx.trans hky.symm)
  have : x = (x.1, x.2) := rfl
  rw [Prod.ext_iff]
  exact ⟨hxy, h2⟩

/-! ### Counting: sizes of the removed and added sets balance -/

theorem length_filter_mem_comm {K : Type u} [DecidableEq K] {a b : List K}
    (ha : a.Nodup) (hb : b.Nodup) :
    (a.filter (fun x => decide (x ∈ b))).length =
      (b.filter (fun x => decide (x ∈ a))).length := by
  have hfa : (a.filter (fun x => decide (x ∈ b))).Nodup := ha.filter _
  have hfb : (b.filter (fun x => decide (x ∈ a))).Nodup := hb.filter _
  rw [← List.toFinset_card_of_nodup hfa, ← List.toFinset_card_of_nodup hfb]
  rw [List.toFinset_filter, List.toFinset_filter]
  congr 1
  have h1 : Finset.filter (fun x => decide (x ∈ b) = true) a.toFinset =
      a.toFinset ∩ b.toFinset := by
    rw [← Finset.filter_mem_eq_inter]
    apply Finset.filter_congr
    intro x _
    simp [List.mem_toFinset]
  have h2 : Finset.filter (fun x => decide (x ∈ a) = true) b.toFinset =
      b.toFinset ∩ a.toFinset := by
    rw [← Finset.filter_mem_eq_inter]
    apply Finset.filter_congr
    intro x _
    simp [List.mem_toFinset]
  rw [h1, h2, Finset.inter_comm]

theorem length_difference_balance {K : Type u} [DecidableEq K]
    {a b : List K} (ha : a.Nodup) (hb : b.Nodup) :
    a.length + (difference b a).length = b.length + (difference a b).length := by
  have hsplit : ∀ (l r : List K), l.length =
      (l.filter (fun x => decide (x ∈ r))).length + (difference l r).length := by
    intro l r
    have hlen := @List.length_eq_length_filter_add K l (fun x => decide (x ∈ r))
    have hd : difference l r = l.filter (fun x => !decide (x ∈ r)) := by
      unfold difference
      apply List.filter_congr
      intro x _
      simp
    rw [hlen, hd]
  rw [hsplit a b, hsplit b a, length_filter_mem_comm ha hb]
  omega

theorem diff_length_balance {K : Type u} [DecidableEq K]
    {fromKeys toKeys : List K} (hf : fromKeys.Nodup) (ht : toKeys.Nodup) :
    fromKeys.length + (diffAdded fromKeys toKeys).length =
      toKeys.length + (diffRemoved fromKeys toKeys).length := by
  unfold diffAdded diffRemoved
  rw [List.length_map, List.length_map]
  exact length_difference_balance hf ht

/-! ### Shape of the resized slot array -/

theorem padded_getElem_lt {K : Type u} (l : List K) (p i : Nat)
    (h : i < l.length) :
    (l.map some ++ List.replicate p (none : Option K))[i]? = (l[i]?).map some := by
  rw [List.getElem?_append_left (by simpa using h), List.getElem?_map]

theorem padded_getElem_mid {K : Type u} (l : List K) (p i : Nat)
    (h1 : l.length ≤ i) (h2 : i < l.length + p) :
    (l.map some ++ List.replicate p (none : Option K))[i]? = some none := by
  rw [List.getElem?_append_right (by simpa using h1)]
  rw [List.getElem?_replicate]
  rw [List.length_map]
  rw [if_pos (by omega)]

theorem padded_getElem_ge {K : Type u} (l : List K) (p i : Nat)
    (h : l.length + p ≤ i) :
    (l.map some ++ List.replicate p (none : Option K))[i]? = none := by
  apply List.getElem?_eq_none
  simpa using h

theorem filter_isSome_padded {K : Type u} (l : List K) (p : Nat) :
    ((l.map some ++ List.replicate p (none : Option K)).filter
      (fun c => c.isSome)) = l.map some := by
  rw [List.filter_append]
  rw [List.filter_eq_self.2 (by
    intro a ha
    obtain ⟨x, _, hx⟩ := List.mem_map.1 ha
    rw [← hx]
    rfl)]
  rw [List.filter_eq_nil_iff.2 (by
    intro a ha
    rw [List.eq_of_mem_replicate ha]
    simp)]
  rw [List.append_nil]

theorem getD_of_lookup {K : Type u} {l : List K} {i : Nat} {k d0 : K}
    (h : l[i]? = some k) : l.getD i d0 = k := by
  rw [List.getD_eq_getElem?_getD, h]
  rfl

/-- Core correctness of the apply pass on a non-collapsed diff: if the four
fields of `d` are exactly what the main branch of `diff from to` produces
(after rehydration of the added views), applying `d` to the slot array
arranged per `from` yields the slot array arranged per `to`. -/
theorem applyDiff_main {K : Type u} [DecidableEq K] (f t : List K)
    (hf : f.Nodup) (ht : t.Nodup) (hne : t ≠ [])
    (d : Diff K)
    (hrem : d.removed = diffRemoved f t)
    (hmov : d.moved = diffMoves f t)
    (hadd : d.added = (diffAdded f t).map (fun i => (i, t[i]?)))
    (hcl : d.clear = false) :
    applyDiff id d (f.map some) = some (t.map some) := by
  have hbal : f.length + (diffAdded f t).length
      = t.length + (diffRemoved f t).length := diff_length_balance hf ht
  have haddlen : d.added.length = (diffAdded f t).length := by
    rw [hadd, List.length_map]
  have hremlen : d.removed.length = (diffRemoved f t).length := by rw [hrem]
  obtain ⟨P, hc0, hmle⟩ : ∃ P, resizeStage d (f.map some) =
      f.map some ++ List.replicate P none ∧ t.length ≤ f.length + P := by
    by_cases hle : d.removed.length ≤ d.added.length
    · refine ⟨d.added.length - d.removed.length, ?_, ?_⟩
      · unfold resizeStage
        rw [if_pos hle]
      · rw [haddlen, hremlen] at hle ⊢
        omega
    · refine ⟨0, ?_, ?_⟩
      · unfold resizeStage
        rw [if_neg hle]
        simp
      · rw [haddlen, hremlen] at hle
        omega
  have hc0len : (resizeStage d (f.map some)).length = f.length + P := by
    rw [hc0]
    simp
  have hclear : clearStage d (resizeStage d (f.map some)) =
      some (resizeStage d (f.map some), d.removed) := by
    unfold clearStage
    rw [hcl]
    simp
  have hRbound : ∀ r ∈ d.removed, r < (resizeStage d (f.map some)).length := by
    intro r hr
    rw [hrem] at hr
    obtain ⟨k, hk, _⟩ := (mem_diffRemoved hf).1 hr
    have : r < f.length := (List.getElem?_eq_some.1 hk).1
    rw [hc0len]
    omega
  obtain ⟨c1, hc1, hc1len, hc1in, hc1out⟩ :=
    removePass_spec d.removed (resizeStage d (f.map some)) hRbound
  have hpost : postRemoval d (resizeStage d (f.map some)) = some c1 := by
    unfold postRemoval
    rw [hclear]
    exact hc1
  obtain ⟨k0, _⟩ : ∃ x : K, x ∈ t := by
    cases t with
    | nil => exact absurd rfl hne
    | cons a l => exact ⟨a, List.mem_cons_self a l⟩
  have hmv : ∀ mm ∈ d.moved, ∃ k, t[mm.2]? = some k ∧ f[mm.1]? = some k := by
    intro mm hmm
    rw [hmov] at hmm
    obtain ⟨k, hk, hgf⟩ := diffMoves_mem hmm
    exact ⟨k, hk, getFull_eq_some hgf⟩
  have hvalt : ∀ mm ∈ d.moved, t[mm.2]? = some (f.getD mm.1 k0) := by
    intro mm hmm
    obtain ⟨k, hkt, hkf⟩ := hmv mm hmm
    rw [getD_of_lookup hkf]
    exact hkt
  have hval : ∀ mm ∈ d.moved, c1[mm.1]? = some (some (f.getD mm.1 k0)) := by
    intro mm hmm
    obtain ⟨k, hkt, hkf⟩ := hmv mm hmm
    have hm1 : mm.1 < f.length := (List.getElem?_eq_some.1 hkf).1
    have hnotR : mm.1 ∉ d.removed := by
      rw [hrem]
      intro hcon
      obtain ⟨k2, hk2, hk2t⟩ := (mem_diffRemoved hf).1 hcon
      rw [hkf] at hk2
      have hkk : k = k2 := by simpa using hk2
      rw [← hkk] at hk2t
      exact hk2t (List.mem_iff_getElem?.2 ⟨mm.2, hkt⟩)
    rw [hc1out mm.1 hnotR, hc0]
    rw [padded_getElem_lt f P mm.1 hm1]
    rw [hkf, getD_of_lookup hkf]
    rfl
  have hndfst : (d.moved.map Prod.fst).Nodup := by
    rw [hmov]
    exact diffMoves_nodup_fst ht
  obtain ⟨c2, hc2, hc2len, hc2in, hc2out⟩ :=
    movePassAux_spec (fun mm => f.getD mm.1 k0) d.moved c1 [] hndfst hval
  have hmove : movePass d.moved c1 =
      some (c2, d.moved.map (fun mm => (mm.2, f.getD mm.1 k0))) := by
    unfold movePass
    simpa using hc2
  have haddps : d.added.map (fun p => (p.1, p.2.map (id : K → K))) =
      (diffAdded f t).map (fun i => (i, t[i]?)) := by
    rw [hadd, List.map_map]
    apply List.map_congr_left
    intro a _
    simp [Function.comp, Option.map_id']
  have hpsbound : ∀ p ∈ (diffAdded f t).map (fun i => (i, t[i]?)),
      p.1 < c2.length := by
    intro p hp
    obtain ⟨a, ha, rfl⟩ := List.mem_map.1 hp
    obtain ⟨k, hk, _⟩ := (mem_diffAdded ht).1 ha
    have : a < t.length := (List.getElem?_eq_some.1 hk).1
    rw [hc2len, hc1len, hc0len]
    dsimp only
    omega
  have hpsnd : (((diffAdded f t).map (fun i => (i, t[i]?))).map Prod.fst).Nodup := by
    rw [List.map_map]
    have hcomp : List.map (Prod.fst ∘ fun i => (i, t[i]?)) (diffAdded f t) =
        (diffAdded f t).map (fun i => i) :=
      List.map_congr_left (fun a _ => rfl)
    rw [hcomp, List.map_id']
    exact @nodup_diffAdded K _ f t ht
  obtain ⟨c3, hc3, hc3len, hc3in, hc3out⟩ :=
    setSlots_spec ((diffAdded f t).map (fun i => (i, t[i]?))) c2 hpsbound hpsnd
  have hqs : (d.moved.map (fun mm => (mm.2, f.getD mm.1 k0))).map
      (fun p => (p.1, some p.2)) =
      d.moved.map (fun mm => (mm.2, some (f.getD mm.1 k0))) := by
    rw [List.map_map]
    exact List.map_congr_left (fun a _ => rfl)
  have hqbound : ∀ q ∈ d.moved.map (fun mm => (mm.2, some (f.getD mm.1 k0))),
      q.1 < c3.length := by
    intro q hq
    obtain ⟨mm, hmm, rfl⟩ := List.mem_map.1 hq
    have := (List.getElem?_eq_some.1 (hvalt mm hmm)).1
    rw [hc3len, hc2len, hc1len, hc0len]
    dsimp only
    omega
  have hqnd : ((d.moved.map (fun mm => (mm.2, some (f.getD mm.1 k0)))).map
      Prod.fst).Nodup := by
    rw [List.map_map]
    have h : (d.moved.map Prod.snd).Nodup := by
      rw [hmov]
      exact diffMoves_nodup_snd f t
    exact h
  obtain ⟨c4, hc4, hc4len, hc4in, hc4out⟩ :=
    setSlots_spec (d.moved.map (fun mm => (mm.2, some (f.getD mm.1 k0)))) c3
      hqbound hqnd
  have hfinal : c4 = t.map some ++
      List.replicate (f.length + P - t.length) none := by
    apply List.ext_getElem?
    intro i
    by_cases hiMT : ∃ mm, mm ∈ d.moved ∧ mm.2 = i
    · obtain ⟨mm, hmm, rfl⟩ := hiMT
      have h1 : c4[mm.2]? = some (some (f.getD mm.1 k0)) := by
        have := hc4in (mm.2, some (f.getD mm.1 k0))
          (List.mem_map.2 ⟨mm, hmm, rfl⟩)
        simpa using this
      have hm2 : mm.2 < t.length := (List.getElem?_eq_some.1 (hvalt mm hmm)).1
      rw [h1, padded_getElem_lt t _ mm.2 hm2, hvalt mm hmm]
      rfl
    · have hniMT : i ∉ (d.moved.map (fun mm => (mm.2, some (f.getD mm.1 k0)))).map
          Prod.fst := by
        intro hcon
        rw [List.map_map] at hcon
        obtain ⟨mm, hmm, hmmi⟩ := List.mem_map.1 hcon
        exact hiMT ⟨mm, hmm, hmmi⟩
      have h4 : c4[i]? = c3[i]? := hc4out i hniMT
      by_cases hiA : i ∈ diffAdded f t
      · have hp : (i, t[i]?) ∈ (diffAdded f t).map (fun a => (a, t[a]?)) :=
          List.mem_map.2 ⟨i, hiA, rfl⟩
        have h3 := hc3in _ hp
        obtain ⟨k, hk, _⟩ := (mem_diffAdded ht).1 hiA
        have hilt : i < t.length := (List.getElem?_eq_some.1 hk).1
        rw [h4, h3, padded_getElem_lt t _ i hilt, hk]
        rfl
      · have hniA : i ∉ ((diffAdded f t).map (fun a => (a, t[a]?))).map Prod.fst := by
          intro hcon
          rw [List.map_map] at hcon
          obtain ⟨a, ha, hai⟩ := List.mem_map.1 hcon
          dsimp only [Function.comp] at hai
          rw [hai] at ha
          exact hiA ha
        have h3 : c3[i]? = c2[i]? := hc3out i hniA
        by_cases hilt : i < t.length
        · obtain ⟨k, hk⟩ : ∃ k, t[i]? = some k :=
            ⟨_, List.getElem?_eq_getElem hilt⟩
          have hkf : k ∈ f := by
            by_contra hkn
            exact hiA ((mem_diffAdded ht).2 ⟨k, hk, hkn⟩)
          obtain ⟨fi, hgf⟩ := getFull_isSome_of_mem hkf
          rcases diffMoves_total hk hgf with hin | heq
          · exact absurd ⟨(fi, i), by rw [hmov]; exact hin, rfl⟩ hiMT
          · rw [heq] at hgf
            have hfi : f[i]? = some k := getFull_eq_some hgf
            have hiS : i ∉ d.moved.map Prod.fst := by
              intro hcon
              obtain ⟨mm, hmm, hmm1⟩ := List.mem_map.1 hcon
              obtain ⟨k2, hk2t, hk2f⟩ := hmv mm hmm
              rw [hmm1, hfi] at hk2f
              have hkk : k = k2 := by simpa using hk2f
              rw [← hkk] at hk2t
              have hmm2 : mm.2 = i :=
                List.getElem?_inj (List.getElem?_eq_some.1 hk2t).1 ht
                  (hk2t.trans hk.symm)
              exact hiMT ⟨mm, hmm, hmm2⟩
            have h2 : c2[i]? = c1[i]? := hc2out i hiS
            have h0 : i ∉ d.removed := by
              rw [hrem]
              intro hcon
              obtain ⟨k2, hk2, hk2t⟩ := (mem_diffRemoved hf).1 hcon
              rw [hfi] at hk2
              have hkk : k = k2 := by simpa using hk2
              rw [← hkk] at hk2t
              exact hk2t (List.mem_iff_getElem?.2 ⟨i, hk⟩)
            have h1 : c1[i]? = (resizeStage d (f.map some))[i]? := hc1out i h0
            rw [h4, h3, h2, h1, hc0,
              padded_getElem_lt f P i (List.getElem?_eq_some.1 hfi).1, hfi,
              padded_getElem_lt t _ i hilt, hk]
        · by_cases hiL : i < f.length + P
          · have hrhs : (t.map some ++
                List.replicate (f.length + P - t.length) none)[i]? = some none :=
              padded_getElem_mid t _ i (by omega) (by omega)
            rw [h4, h3, hrhs]
            by_cases hiS : i ∈ d.moved.map Prod.fst
            · rw [hc2in i hiS]
            · rw [hc2out i hiS]
              by_cases hiR : i ∈ d.removed
              · rw [hc1in i hiR]
              · rw [hc1out i hiR, hc0]
                by_cases hif : i < f.length
                · exfalso
                  obtain ⟨k, hkf⟩ : ∃ k, f[i]? = some k :=
                    ⟨_, List.getElem?_eq_getElem hif⟩
                  have hkt : k ∈ t := by
                    by_contra hkn
                    exact hiR (by
                      rw [hrem]
                      exact (mem_diffRemoved hf).2 ⟨k, hkf, hkn⟩)
                  obtain ⟨j, hj⟩ := List.mem_iff_getElem?.1 hkt
                  have hgf : getFull f k = some i := getFull_of_getElem hf hkf
                  rcases diffMoves_total hj hgf with hin | heq
                  · exact hiS (by
                      rw [hmov]
                      exact List.mem_map.2 ⟨(i, j), hin, rfl⟩)
                  · have hjlt : j < t.length := (List.getElem?_eq_some.1 hj).1
                    omega
                · rw [padded_getElem_mid f P i (by omega) (by omega)]
          · have hl4 : c4.length = f.length + P := by
              rw [hc4len, hc3len, hc2len, hc1len, hc0len]
            rw [List.getElem?_eq_none (by rw [hl4]; omega),
              List.getElem?_eq_none (by
                rw [List.length_append, List.length_map, List.length_replicate]
                omega)]
  unfold applyDiff
  simp only [hpost, hmove, haddps, hc3, hqs, hc4, hfinal, filter_isSome_padded]

/-- Applying a pure discard-everything diff empties every slot and compacts
to the empty array, whatever the slot array held. -/
theorem applyDiff_clear_only {T : Type u} {V : Type v} (viewFn : T → V)
    (cs : List (Option V)) :
    applyDiff viewFn (⟨[], [], [], true⟩ : Diff T) cs = some [] := by
  have hc0 : resizeStage (⟨[], [], [], true⟩ : Diff T) cs = cs := by
    unfold resizeStage
    simp
  obtain ⟨c1, hc1, hc1len, hc1in, _⟩ :=
    removePass_spec (List.range cs.length) cs (fun r hr => List.mem_range.1 hr)
  have hclear : clearStage (⟨[], [], [], true⟩ : Diff T) cs = some (c1, []) := by
    unfold clearStage
    simp only [hc1]
    simp
  have hpost : postRemoval (⟨[], [], [], true⟩ : Diff T) cs = some c1 := by
    unfold postRemoval
    rw [hclear]
    rfl
  have hrepl : c1 = List.replicate cs.length none := by
    apply List.ext_getElem?
    intro i
    by_cases hi : i < cs.length
    · rw [hc1in i (List.mem_range.2 hi), List.getElem?_replicate, if_pos hi]
    · rw [List.getElem?_eq_none (show c1.length ≤ i by rw [hc1len]; omega),
        List.getElem?_eq_none
          (show (List.replicate cs.length (none : Option V)).length ≤ i by
            rw [List.length_replicate]; omega)]
  have hfilter : c1.filter (fun c => c.isSome) = [] := by
    rw [hrepl]
    apply List.filter_eq_nil_iff.2
    intro a ha
    rw [List.eq_of_mem_replicate ha]
    simp
  unfold applyDiff
  rw [hc0]
  simp only [hpost]
  simp only [movePass, movePassAux, List.map_nil, setSlots, hfilter]

/-- Core correctness of the apply pass on a collapsed diff: when the
post-pass of `diff` fired (everything removed, no moves), applying the
rehydrated diff still rebuilds the slot array arranged per `to`. -/
theorem applyDiff_clear_all {K : Type u} [DecidableEq K] (f t : List K)
    (hf : f.Nodup) (ht : t.Nodup) (hne : t ≠ [])
    (d : Diff K)
    (hrem : d.removed = diffRemoved f t)
    (hmov : d.moved = [])
    (hadd : d.added = (diffAdded f t).map (fun i => (i, t[i]?)))
    (hcl : d.clear = true)
    (hall : (diffRemoved f t).length = f.length) :
    applyDiff id d (f.map some) = some (t.map some) := by
  have hbal : f.length + (diffAdded f t).length
      = t.length + (diffRemoved f t).length := diff_length_balance hf ht
  have hdisj : ∀ x ∈ f, x ∉ t := by
    have hlen : (difference f t).length = f.length := by
      have : (diffRemoved f t).length = (difference f t).length := by
        unfold diffRemoved
        rw [List.length_map]
      omega
    have hsub : difference f t = f :=
      List.Sublist.eq_of_length (List.filter_sublist f) hlen
    intro x hx
    have : x ∈ difference f t := by rw [hsub]; exact hx
    exact (mem_difference.1 this).2
  have hAl : ∀ i, i < t.length → i ∈ diffAdded f t := by
    intro i hi
    obtain ⟨k, hk⟩ : ∃ k, t[i]? = some k := ⟨_, List.getElem?_eq_getElem hi⟩
    refine (mem_diffAdded ht).2 ⟨k, hk, ?_⟩
    intro hkf
    exact hdisj k hkf (List.mem_iff_getElem?.2 ⟨i, hk⟩)
  have haddlen : d.added.length = (diffAdded f t).length := by
    rw [hadd, List.length_map]
  have hremlen : d.removed.length = (diffRemoved f t).length := by rw [hrem]
  obtain ⟨P, hc0, hmle⟩ : ∃ P, resizeStage d (f.map some) =
      f.map some ++ List.replicate P none ∧ t.length ≤ f.length + P := by
    by_cases hle : d.removed.length ≤ d.added.length
    · refine ⟨d.added.length - d.removed.length, ?_, ?_⟩
      · unfold resizeStage
        rw [if_pos hle]
      · rw [haddlen, hremlen] at hle ⊢
        omega
    · refine ⟨0, ?_, ?_⟩
      · unfold resizeStage
        rw [if_neg hle]
        simp
      · rw [haddlen, hremlen] at hle
        omega
  have hc0len : (resizeStage d (f.map some)).length = f.length + P := by
    rw [hc0]
    simp
  obtain ⟨c1, hc1, hc1len, hc1in, _⟩ :=
    removePass_spec (List.range (resizeStage d (f.map some)).length)
      (resizeStage d (f.map some)) (fun r hr => List.mem_range.1 hr)
  have hclear : clearStage d (resizeStage d (f.map some)) = some (c1, []) := by
    unfold clearStage
    rw [hcl]
    simp only [hc1]
    rfl
  have hpost : postRemoval d (resizeStage d (f.map some)) = some c1 := by
    unfold postRemoval
    rw [hclear]
    rfl
  have hmove : movePass d.moved c1 = some (c1, []) := by
    rw [hmov]
    rfl
  have haddps : d.added.map (fun p => (p.1, p.2.map (id : K → K))) =
      (diffAdded f t).map (fun i => (i, t[i]?)) := by
    rw [hadd, List.map_map]
    apply List.map_congr_left
    intro a _
    simp [Function.comp, Option.map_id']
  have hpsbound : ∀ p ∈ (diffAdded f t).map (fun i => (i, t[i]?)),
      p.1 < c1.length := by
    intro p hp
    obtain ⟨a, ha, rfl⟩ := List.mem_map.1 hp
    obtain ⟨k, hk, _⟩ := (mem_diffAdded ht).1 ha
    have : a < t.length := (List.getElem?_eq_some.1 hk).1
    rw [hc1len, hc0len]
    dsimp only
    omega
  have hpsnd : (((diffAdded f t).map (fun i => (i, t[i]?))).map Prod.fst).Nodup := by
    rw [List.map_map]
    have hcomp : List.map (Prod.fst ∘ fun i => (i, t[i]?)) (diffAdded f t) =
        (diffAdded f t).map (fun i => i) :=
      List.map_congr_left (fun a _ => rfl)
    rw [hcomp, List.map_id']
    exact @nodup_diffAdded K _ f t ht
  obtain ⟨c3, hc3, hc3len, hc3in, hc3out⟩ :=
    setSlots_spec ((diffAdded f t).map (fun i => (i, t[i]?))) c1 hpsbound hpsnd
  have hfinal : c3 = t.map some ++
      List.replicate (f.length + P - t.length) none := by
    apply List.ext_getElem?
    intro i
    by_cases hilt : i < t.length
    · have hp : (i, t[i]?) ∈ (diffAdded f t).map (fun a => (a, t[a]?)) :=
        List.mem_map.2 ⟨i, hAl i hilt, rfl⟩
      have h3 := hc3in _ hp
      obtain ⟨k, hk⟩ : ∃ k, t[i]? = some k := ⟨_, List.getElem?_eq_getElem hilt⟩
      rw [h3, padded_getElem_lt t _ i hilt, hk]
      rfl
    · by_cases hiL : i < f.length + P
      · have hniA : i ∉ ((diffAdded f t).map (fun a => (a, t[a]?))).map Prod.fst := by
          intro hcon
          rw [List.map_map] at hcon
          obtain ⟨a, ha, hai⟩ := List.mem_map.1 hcon
          dsimp only [Function.comp] at hai
          rw [hai] at ha
          obtain ⟨k, hk, _⟩ := (mem_diffAdded ht).1 ha
          exact hilt (List.getElem?_eq_some.1 hk).1
        rw [hc3out i hniA, hc1in i (List.mem_range.2 (by rw [hc0len]; omega)),
          padded_getElem_mid t _ i (by omega) (by omega)]
      · rw [List.getElem?_eq_none (by rw [hc3len, hc1len, hc0len]; omega),
          List.getElem?_eq_none (by
            rw [List.length_append, List.length_map, List.length_replicate]
            omega)]
  unfold applyDiff
  simp only [hpost, hmove, haddps, hc3, List.map_nil, setSlots, hfinal,
    filter_isSome_padded]


theorem isEmpty_false_of_ne_nil {K : Type u} {t : List K} (hne : t ≠ []) :
    t.isEmpty = false := by
  cases t with
  | nil => exact absurd rfl hne
  | cons a l => rfl

theorem diff_eq_main_true {K : Type u} {T : Type u} [DecidableEq K]
    (f t : List K) (hne : t ≠ [])
    (hc : (!f.isEmpty && !t.isEmpty && ((diffRemoved f t).length == f.length)
      && (diffMoves f t).isEmpty) = true) :
    (diff f t : Diff T) = ⟨diffRemoved f t, diffMoves f t,
      (diffAdded f t).map (fun i => (i, (none : Option T))), true⟩ := by
  have h1 : t.isEmpty = false := isEmpty_false_of_ne_nil hne
  rw [h1] at hc
  unfold diff
  rw [h1]
  simp only [Bool.and_false]
  rw [if_neg (by simp), if_neg (by simp), hc]
  simp

theorem diff_eq_main_false {K : Type u} {T : Type u} [DecidableEq K]
    (f t : List K) (hne : t ≠ [])
    (hc : (!f.isEmpty && !t.isEmpty && ((diffRemoved f t).length == f.length)
      && (diffMoves f t).isEmpty) = false) :
    (diff f t : Diff T) = ⟨diffRemoved f t, diffMoves f t,
      (diffAdded f t).map (fun i => (i, (none : Option T))), false⟩ := by
  have h1 : t.isEmpty = false := isEmpty_false_of_ne_nil hne
  rw [h1] at hc
  unfold diff
  rw [h1]
  simp only [Bool.and_false]
  rw [if_neg (by simp), if_neg (by simp), hc]
  simp

theorem rehydrate_diffAdded {K : Type u} [DecidableEq K] (f t : List K)
    (cl : Bool) :
    rehydrate t (⟨diffRemoved f t, diffMoves f t,
      (diffAdded f t).map (fun i => (i, (none : Option K))), cl⟩ : Diff K) =
    ⟨diffRemoved f t, diffMoves f t,
      (diffAdded f t).map (fun i => (i, t[i]?)), cl⟩ := by
  unfold rehydrate
  dsimp only
  rw [List.map_map]
  rfl

/-- C1: for any two duplicate-free key sequences `from` and `to`, applying
the rehydrated `diff(from, to)` via `apply_diff` to a slot array whose
occupied slots are arranged per `from` yields exactly the slot array
arranged per `to`: same length, same order, and no empty slot remains. -/
theorem c1_diff_apply_roundtrip {K : Type u} [DecidableEq K]
    (f t : List K) (hf : f.Nodup) (ht : t.Nodup) :
    applyDiff id (rehydrate t (diff f t)) (f.map some) = some (t.map some) := by
  by_cases hne : t = []
  · subst hne
    by_cases hfe : f = []
    · subst hfe
      rfl
    · have hdiff : (diff f [] : Diff K) = ⟨[], [], [], true⟩ := by
        cases f with
        | nil => exact absurd rfl hfe
        | cons a l => rfl
      rw [hdiff]
      exact applyDiff_clear_only id (f.map some)
  · cases hcond : (!f.isEmpty && !t.isEmpty &&
        ((diffRemoved f t).length == f.length) && (diffMoves f t).isEmpty) with
    | true =>
      rw [diff_eq_main_true f t hne hcond, rehydrate_diffAdded f t true]
      have hparts := hcond
      simp only [Bool.and_eq_true] at hparts
      obtain ⟨⟨_, hlen⟩, hmv⟩ := hparts
      have hall : (diffRemoved f t).length = f.length := by simpa using hlen
      have hmvnil : diffMoves f t = [] := by simpa using hmv
      exact applyDiff_clear_all f t hf ht hne _ rfl hmvnil rfl rfl hall
    | false =>
      rw [diff_eq_main_false f t hne hcond, rehydrate_diffAdded f t false]
      exact applyDiff_main f t hf ht hne _ rfl rfl rfl rfl

theorem c1_diff_apply_roundtrip_witness :
    ([0, 1, 2] : List Nat).Nodup ∧ ([1, 2, 0] : List Nat).Nodup ∧
    applyDiff id (rehydrate [1, 2, 0] (diff [0, 1, 2] [1, 2, 0]))
      ([0, 1, 2].map some) = some ([1, 2, 0].map some) :=
  ⟨by decide, by decide,
    c1_diff_apply_roundtrip [0, 1, 2] [1, 2, 0] (by decide) (by decide)⟩

/-- C8: for a diff produced by `diff(from, to)` on duplicate-free key
sequences (after rehydration), once the clear and removal passes of
`apply_diff` have run, every move operation's `from` index points at a slot
that is still occupied, so `children[from].take().unwrap()` in the move pass
never fails; the move pass (which stages `(to, item)` pairs for the deferred
write-back that happens only after the removal pass) therefore succeeds. -/
theorem c8_moves_read_nonempty {K : Type u} [DecidableEq K]
    (f t : List K) (hf : f.Nodup) (ht : t.Nodup) :
    ∃ c1, postRemoval (rehydrate t (diff f t))
        (resizeStage (rehydrate t (diff f t)) (f.map some)) = some c1 ∧
      (∀ mv ∈ (rehydrate t (diff f t) : Diff K).moved,
        ∃ v, c1[mv.1]? = some (some v)) ∧
      ∃ pr, movePass (rehydrate t (diff f t)).moved c1 = some pr := by
  by_cases hne : t = []
  · subst hne
    by_cases hfe : f = []
    · subst hfe
      exact ⟨[], rfl, by simp [rehydrate, diff], ⟨([], []), rfl⟩⟩
    · have hdiff : (diff f [] : Diff K) = ⟨[], [], [], true⟩ := by
        cases f with
        | nil => exact absurd rfl hfe
        | cons a l => rfl
      rw [hdiff]
      obtain ⟨c1, hc1, _, _, _⟩ :=
        removePass_spec
          (List.range (resizeStage (rehydrate [] (⟨[], [], [], true⟩ : Diff K))
            (f.map some)).length)
          (resizeStage (rehydrate [] (⟨[], [], [], true⟩ : Diff K)) (f.map some))
          (fun r hr => List.mem_range.1 hr)
      refine ⟨c1, ?_, by simp [rehydrate], ⟨(c1, []), rfl⟩⟩
      unfold postRemoval clearStage
      simp only [hc1]
      rfl
  · cases hcond : (!f.isEmpty && !t.isEmpty &&
        ((diffRemoved f t).length == f.length) && (diffMoves f t).isEmpty) with
    | true =>
      rw [diff_eq_main_true f t hne hcond, rehydrate_diffAdded f t true]
      have hparts := hcond
      simp only [Bool.and_eq_true] at hparts
      obtain ⟨⟨_, _⟩, hmv⟩ := hparts
      have hmvnil : diffMoves f t = [] := by simpa using hmv
      obtain ⟨c1, hc1, _, _, _⟩ :=
        removePass_spec
          (List.range (resizeStage (⟨diffRemoved f t, diffMoves f t,
            (diffAdded f t).map (fun i => (i, t[i]?)), true⟩ : Diff K)
            (f.map some)).length)
          (resizeStage (⟨diffRemoved f t, diffMoves f t,
            (diffAdded f t).map (fun i => (i, t[i]?)), true⟩ : Diff K)
            (f.map some))
          (fun r hr => List.mem_range.1 hr)
      refine ⟨c1, ?_, ?_, ?_⟩
      · unfold postRemoval clearStage
        simp only [hc1]
        rfl
      · intro mv hmv2
        rw [hmvnil] at hmv2
        simp at hmv2
      · rw [hmvnil]
        exact ⟨(c1, []), rfl⟩
    | false =>
      rw [diff_eq_main_false f t hne hcond, rehydrate_diffAdded f t false]
      have haddlen2 : ((diffAdded f t).map
          (fun i => (i, t[i]?))).length = (diffAdded f t).length :=
        List.length_map _ _
      obtain ⟨P, hc0, hPle⟩ : ∃ P, resizeStage (⟨diffRemoved f t, diffMoves f t,
          (diffAdded f t).map (fun i => (i, t[i]?)), false⟩ : Diff K)
            (f.map some) =
          f.map some ++ List.replicate P none ∧ 0 ≤ P := by
        by_cases hle : (diffRemoved f t).length ≤
            ((diffAdded f t).map (fun i => (i, t[i]?))).length
        · refine ⟨((diffAdded f t).map (fun i => (i, t[i]?))).length -
            (diffRemoved f t).length, ?_, by omega⟩
          unfold resizeStage
          rw [if_pos hle]
        · refine ⟨0, ?_, by omega⟩
          unfold resizeStage
          rw [if_neg hle]
          simp
      have hRbound : ∀ r ∈ diffRemoved f t,
          r < (resizeStage (⟨diffRemoved f t, diffMoves f t,
            (diffAdded f t).map (fun i => (i, t[i]?)), false⟩ : Diff K)
            (f.map some)).length := by
        intro r hr
        obtain ⟨k, hk, _⟩ := (mem_diffRemoved hf).1 hr
        have : r < f.length := (List.getElem?_eq_some.1 hk).1
        rw [hc0]
        simp only [List.length_append, List.length_map, List.length_replicate]
        omega
      obtain ⟨c1, hc1, hc1len, hc1in, hc1out⟩ :=
        removePass_spec (diffRemoved f t) _ hRbound
      have hslot : ∀ mv ∈ diffMoves f t, ∃ v, c1[mv.1]? = some (some v) := by
        intro mv hmv2
        obtain ⟨k, hkt, hgf⟩ := diffMoves_mem hmv2
        have hkf : f[mv.1]? = some k := getFull_eq_some hgf
        have hm1 : mv.1 < f.length := (List.getElem?_eq_some.1 hkf).1
        have hnotR : mv.1 ∉ diffRemoved f t := by
          intro hcon
          obtain ⟨k2, hk2, hk2t⟩ := (mem_diffRemoved hf).1 hcon
          rw [hkf] at hk2
          have hkk : k = k2 := by simpa using hk2
          rw [← hkk] at hk2t
          exact hk2t (List.mem_iff_getElem?.2 ⟨mv.2, hkt⟩)
        refine ⟨k, ?_⟩
        rw [hc1out mv.1 hnotR, hc0, padded_getElem_lt f P mv.1 hm1, hkf]
        rfl
      refine ⟨c1, ?_, hslot, ?_⟩
      · unfold postRemoval clearStage
        simp only
        rw [if_neg (by simp)]
        exact hc1
      · obtain ⟨k0, _⟩ : ∃ x : K, x ∈ t := by
          cases t with
          | nil => exact absurd rfl hne
          | cons a l => exact ⟨a, List.mem_cons_self a l⟩
        have hval : ∀ mv ∈ diffMoves f t,
            c1[mv.1]? = some (some (f.getD mv.1 k0)) := by
          intro mv hmv2
          obtain ⟨v, hv⟩ := hslot mv hmv2
          obtain ⟨k, hkt, hgf⟩ := diffMoves_mem hmv2
          have hkf : f[mv.1]? = some k := getFull_eq_some hgf
          rw [getD_of_lookup hkf]
          rw [hv]
          have : some (some v) = c1[mv.1]? := hv.symm
          obtain ⟨hm1, _⟩ := List.getElem?_eq_some.1 hkf
          rw [hc1out mv.1 (by
            intro hcon
            obtain ⟨k2, hk2, hk2t⟩ := (mem_diffRemoved hf).1 hcon
            rw [hkf] at hk2
            have hkk : k = k2 := by simpa using hk2
            rw [← hkk] at hk2t
            exact hk2t (List.mem_iff_getElem?.2 ⟨mv.2, hkt⟩)), hc0,
            padded_getElem_lt f P mv.1 hm1, hkf] at hv
          simp at hv
          rw [hv]
        obtain ⟨c2, hc2, _, _, _⟩ :=
          movePassAux_spec (fun mv => f.getD mv.1 k0) (diffMoves f t) c1 []
            (diffMoves_nodup_fst ht) hval
        exact ⟨_, by unfold movePass; exact hc2⟩

theorem c8_moves_read_nonempty_witness :
    ([0, 1, 2, 3] : List Nat).Nodup ∧ ([3, 0, 1] : List Nat).Nodup ∧
    (∃ c1, postRemoval (rehydrate [3, 0, 1] (diff [0, 1, 2, 3] [3, 0, 1]))
        (resizeStage (rehydrate [3, 0, 1] (diff [0, 1, 2, 3] [3, 0, 1]))
          ([0, 1, 2, 3].map some)) = some c1 ∧
      (∀ mv ∈ (rehydrate [3, 0, 1] (diff [0, 1, 2, 3] [3, 0, 1]) : Diff Nat).moved,
        ∃ v, c1[mv.1]? = some (some v)) ∧
      ∃ pr, movePass (rehydrate [3, 0, 1]
        (diff [0, 1, 2, 3] [3, 0, 1])).moved c1 = some pr) :=
  ⟨by decide, by decide,
    c8_moves_read_nonempty [0, 1, 2, 3] [3, 0, 1] (by decide) (by decide)⟩

theorem difference_self {K : Type u} [DecidableEq K] (t : List K) :
    difference t t = [] := by
  unfold difference
  apply List.filter_eq_nil_iff.2
  intro a ha
  simp [ha]

theorem diffStep_no_move {K : Type u} [DecidableEq K] (f : List K)
    (n : Nat) (ar rr : List Nat) (mv : List (Nat × Nat)) (k : K)
    (hg : getFull f k = some n) :
    diffStep f ⟨n, none, ar, none, rr, mv⟩ (n, k) =
      ⟨wrapAdd1 n, none, ar, none, rr, mv⟩ := by
  unfold diffStep diffStepCursors diffStepMove
  rw [hg]
  simp

theorem diffLoop_no_moves {K : Type u} [DecidableEq K] (f : List K) :
    ∀ (rest : List K) (off : Nat) (st : MoveState),
      st.addedIdx = none → st.removedIdx = none → st.normalized = off →
      off + rest.length < usizeSize →
      (∀ (j : Nat) (k : K), rest[j]? = some k → getFull f k = some (off + j)) →
      (diffLoop f st (List.enumFrom off rest)).moves = st.moves := by
  intro rest
  induction rest with
  | nil =>
    intro off st _ _ _ _ _
    rfl
  | cons k0 rest ih =>
    intro off st haI hrI hnorm hlen hget
    obtain ⟨n, ai, ar, ri, rr, mv⟩ := st
    have haI2 : ai = none := haI
    have hrI2 : ri = none := hrI
    have hnorm2 : n = off := hnorm
    subst haI2
    subst hrI2
    subst hnorm2
    have hunf : diffLoop f ⟨n, none, ar, none, rr, mv⟩
        (List.enumFrom n (k0 :: rest)) =
        diffLoop f (diffStep f ⟨n, none, ar, none, rr, mv⟩ (n, k0))
          (List.enumFrom (n + 1) rest) := by
      rw [List.enumFrom_cons]
      rfl
    have hg0 : getFull f k0 = some n := by
      have := hget 0 k0 (by simp)
      simpa using this
    rw [hunf, diffStep_no_move f n ar rr mv k0 hg0]
    apply ih (n + 1)
    · rfl
    · rfl
    · show wrapAdd1 n = n + 1
      unfold wrapAdd1
      apply Nat.mod_eq_of_lt
      simp only [List.length_cons] at hlen
      omega
    · simp only [List.length_cons] at hlen
      omega
    · intro j k hj
      have := hget (j + 1) k (by simpa using hj)
      rw [show n + (j + 1) = n + 1 + j by omega] at this
      exact this

/-- C6: diffing a duplicate-free key sequence against itself yields the
empty diff: no removals, no moves, no insertions, and the discard flag
false (stated through the source's `Diff::is_empty`).  The length bound
reflects that loop indices are `usize` values in the source. -/
theorem c6_diff_self_empty {K : Type u} [DecidableEq K] (t : List K)
    (ht : t.Nodup) (hlen : t.length < usizeSize) :
    (diff t t : Diff K).isEmpty = true := by
  by_cases hne : t = []
  · subst hne
    rfl
  · have hrem : diffRemoved t t = [] := by
      unfold diffRemoved
      rw [difference_self]
      rfl
    have hadd : diffAdded t t = [] := by
      unfold diffAdded
      rw [difference_self]
      rfl
    have hinit_a : (diffInitState t t).addedIdx = none := by
      show (diffAdded t t).head? = none
      rw [hadd]
      rfl
    have hinit_r : (diffInitState t t).removedIdx = none := by
      show (diffRemoved t t).head? = none
      rw [hrem]
      rfl
    have hg : ∀ (j : Nat) (k : K), t[j]? = some k →
        getFull t k = some (0 + j) := by
      intro j k hj
      have := getFull_of_getElem ht hj
      simpa using this
    have hmoves := diffLoop_no_moves t t 0 (diffInitState t t) hinit_a hinit_r
      rfl (by simpa using hlen) hg
    have hmov : diffMoves t t = [] := by
      unfold diffMoves
      rw [List.enum_eq_enumFrom, hmoves]
      rfl
    have hcond : (!t.isEmpty && !t.isEmpty &&
        ((diffRemoved t t).length == t.length) && (diffMoves t t).isEmpty) =
        false := by
      rw [hrem]
      have hlen0 : t.length ≠ 0 := by
        intro h0
        exact hne (List.length_eq_zero.1 h0)
      simp
      intro _
      omega
    rw [diff_eq_main_false t t hne hcond]
    unfold Diff.isEmpty
    rw [hrem, hmov, hadd]
    rfl

theorem c6_diff_self_empty_witness :
    ([0, 1, 2] : List Nat).Nodup ∧ ([0, 1, 2] : List Nat).length < usizeSize ∧
    (diff [0, 1, 2] [0, 1, 2] : Diff Nat).isEmpty = true :=
  ⟨by decide, by decide, c6_diff_self_empty [0, 1, 2] (by decide) (by decide)⟩

/-- C2 (counterexample): on `from = [A, B, C]`, `to = [B, C, A]` (keys 0, 1,
2), the move list produced by `diff` is not the single move `(0, 2)` the
claim describes — the loop emits a move for every key whose old index
differs from the loop index. -/
theorem c2_counterexample :
    (diff [0, 1, 2] [1, 2, 0] : Diff Nat).moved ≠ [(0, 2)] := by decide

/-- C2 (amended): `diff([A,B,C], [B,C,A])` returns exactly three move
operations — B from 1 to 0, C from 2 to 1, and A from 0 to 2 — together
with no removals, no insertions, and the discard flag false. -/
theorem c2_three_moves :
    (diff [0, 1, 2] [1, 2, 0] : Diff Nat) =
      ⟨[], [(1, 0), (2, 1), (0, 2)], [], false⟩ := by decide

/-- C3 (counterexample): `diff([A], [B])` collapses to the discard flag, yet
the returned `removed` list still holds the per-item removal of index 0 —
the source sets `clear` without clearing `removed`. -/
theorem c3_counterexample :
    (diff [0] [1] : Diff Nat).clear = true ∧
    (diff [0] [1] : Diff Nat).removed ≠ [] := by decide

/-- C3 (amended): when every key of a non-empty `from` is removed and no
moves are produced (against a non-empty `to`), the returned diff has the
discard flag set but its removed list is *not* cleared — it still lists one
removal per `from` element; only `apply_diff` later discards them. -/
theorem c3_collapse_keeps_removed {K : Type u} [DecidableEq K]
    (f t : List K) (hf : f ≠ []) (ht : t ≠ [])
    (hlen : (diff f t : Diff K).removed.length = f.length)
    (hmv : (diff f t : Diff K).moved = []) :
    (diff f t : Diff K).clear = true ∧ (diff f t : Diff K).removed ≠ [] := by
  cases hcond : (!f.isEmpty && !t.isEmpty &&
      ((diffRemoved f t).length == f.length) && (diffMoves f t).isEmpty) with
  | true =>
    rw [diff_eq_main_true f t ht hcond] at hlen ⊢
    refine ⟨rfl, ?_⟩
    intro hnil
    rw [hnil] at hlen
    have : f.length = 0 := by simpa using hlen.symm
    exact hf (List.length_eq_zero.1 this)
  | false =>
    exfalso
    rw [diff_eq_main_false f t ht hcond] at hlen hmv
    have h1 : f.isEmpty = false := isEmpty_false_of_ne_nil hf
    have h2 : t.isEmpty = false := isEmpty_false_of_ne_nil ht
    rw [h1, h2] at hcond
    simp only at hlen hmv
    rw [hlen, hmv] at hcond
    simp at hcond

theorem c3_collapse_keeps_removed_witness :
    ([0] : List Nat) ≠ [] ∧ ([1] : List Nat) ≠ [] ∧
    (diff [0] [1] : Diff Nat).removed.length = ([0] : List Nat).length ∧
    (diff [0] [1] : Diff Nat).moved = [] ∧
    ((diff [0] [1] : Diff Nat).clear = true ∧
      (diff [0] [1] : Diff Nat).removed ≠ []) :=
  ⟨by decide, by decide, by decide, by decide,
    c3_collapse_keeps_removed [0] [1] (by decide) (by decide) (by decide)
      (by decide)⟩

/-- C4 (counterexample): in the run `diff([A, B], [B])` (keys 0, 1), when
the shared key B is visited at loop index 0, the cursor blocks have already
raised `normalized_idx` to 1, equal to B's old index 1 — yet the move
`(1, 0)` is still emitted, because the old index differs from the loop
index.  Coinciding with the running normalized position alone does not
suppress a move. -/
theorem c4_counterexample :
    (diffStepCursors (diffInitState [0, 1] [1]) 0).normalized = 1 ∧
    getFull [0, 1] (1 : Nat) = some 1 ∧
    (diff [0, 1] [1] : Diff Nat).moved = [(1, 0)] := by decide

/-- C4 (amended): at the visit of a key present in the old generation, the
move-emission block suppresses the move only when the key's old index
equals *both* the running `normalized_idx` and the current loop index; in
every other case — including when the old index equals the normalized
index but not the loop index — a move `(old index, loop index)` is
appended. -/
theorem c4_move_emission_iff {K : Type u} [DecidableEq K]
    (fromKeys : List K) (st : MoveState) (idx : Nat) (k : K) (fi : Nat)
    (h : getFull fromKeys k = some fi) :
    (diffStepMove fromKeys st idx k).moves =
      if fi = st.normalized ∧ fi = idx then st.moves
      else st.moves ++ [(fi, idx)] := by
  unfold diffStepMove
  rw [h]
  dsimp only
  by_cases hc : fi ≠ st.normalized ∨ fi ≠ idx
  · rw [if_pos hc, if_neg (by tauto)]
  · rw [if_neg hc, if_pos (by tauto)]

theorem c4_move_emission_iff_witness :
    getFull [5, 7] (7 : Nat) = some 1 ∧
    (diffStepMove [5, 7] ⟨1, none, [], none, [], []⟩ 0 (7 : Nat)).moves =
      (if (1 : Nat) = 1 ∧ (1 : Nat) = 0 then ([] : List (Nat × Nat))
       else [] ++ [(1, 0)]) :=
  ⟨by decide,
    c4_move_emission_iff [5, 7] ⟨1, none, [], none, [], []⟩ 0 7 1 (by decide)⟩

/-- C5 (counterexample): `diff([], [])` does not set the discard flag — the
both-empty branch returns the all-empty diff with `clear = false`, so the
claim fails for the empty `from` sequence. -/
theorem c5_counterexample :
    (diff ([] : List Nat) [] : Diff Nat) ≠ ⟨[], [], [], true⟩ := by decide

/-- C5 (amended): for every *non-empty* key sequence `from`,
`diff(from, [])` returns the diff whose only content is the discard flag:
empty removed, moved, and added lists, and `clear = true`; for the empty
`from`, `diff([], [])` is the all-empty diff with the flag false. -/
theorem c5_to_empty_clear {K : Type u} {T : Type u} [DecidableEq K]
    (f : List K) (hf : f ≠ []) :
    (diff f [] : Diff T) = ⟨[], [], [], true⟩ := by
  cases f with
  | nil => exact absurd rfl hf
  | cons a l => rfl

theorem c5_to_empty_clear_witness :
    ([0] : List Nat) ≠ [] ∧ (diff [0] [] : Diff Nat) = ⟨[], [], [], true⟩ :=
  ⟨by decide, c5_to_empty_clear [0] (by decide)⟩

/-- C7 (counterexample): a diff with one removal and no insertion is not
resized at all — before the removal pass the array still has its old length
1, not the expected new length 1 + 0 − 1 = 0.  The resize step only runs
when `added.len().checked_sub(removed.len())` is `Some`. -/
theorem c7_counterexample :
    (resizeStage (⟨[0], [], [], false⟩ : Diff Nat) [some 0]).length ≠
      [some (0 : Nat)].length + (⟨[0], [], [], false⟩ : Diff Nat).added.length
        - (⟨[0], [], [], false⟩ : Diff Nat).removed.length := by decide

/-- C7 (amended): the resize step before any edit extends the array to
`old length + inserted − removed` exactly when at least as many slots are
inserted as removed; when removals outnumber insertions the array is left
at its old length (it shrinks only in the final compaction). -/
theorem c7_resize_when_growing {T : Type u} {V : Type v}
    (d : Diff T) (cs : List (Option V)) :
    (d.removed.length ≤ d.added.length →
      (resizeStage d cs).length =
        cs.length + d.added.length - d.removed.length) ∧
    (d.added.length < d.removed.length → resizeStage d cs = cs) := by
  constructor
  · intro h
    unfold resizeStage
    rw [if_pos h]
    simp only [List.length_append, List.length_replicate]
    omega
  · intro h
    unfold resizeStage
    rw [if_neg (by omega)]

theorem c7_resize_when_growing_witness :
    ((⟨[], [], [(0, some 0)], false⟩ : Diff Nat).removed.length ≤
      (⟨[], [], [(0, some 0)], false⟩ : Diff Nat).added.length) ∧
    (resizeStage (⟨[], [], [(0, some 0)], false⟩ : Diff Nat)
        [some (5 : Nat)]).length =
      [some (5 : Nat)].length +
        (⟨[], [], [(0, some 0)], false⟩ : Diff Nat).added.length -
        (⟨[], [], [(0, some 0)], false⟩ : Diff Nat).removed.length :=
  ⟨by decide,
    (c7_resize_when_growing (⟨[], [], [(0, some 0)], false⟩ : Diff Nat)
      [some (5 : Nat)]).1 (by decide)⟩

/-- C9: `remove_index` on an in-bounds slot that is already empty is a
silent no-op — the slot array is returned unchanged, nothing is disposed
(the disposed-value component is `none`), and no error is signalled (the
result is `some`, not the panic `none`). -/
theorem c9_remove_empty_noop {V : Type v} (cs : List (Option V)) (i : Nat)
    (h1 : i < cs.length) (h2 : cs[i]? = some none) :
    removeIndex cs i = some (cs, none) := by
  unfold removeIndex
  rw [h2]

theorem c9_remove_empty_noop_witness :
    (0 : Nat) < ([none, some 3] : List (Option Nat)).length ∧
    ([none, some 3] : List (Option Nat))[0]? = some none ∧
    removeIndex ([none, some 3] : List (Option Nat)) 0 =
      some ([none, some 3], none) :=
  ⟨by decide, by decide,
    c9_remove_empty_noop [none, some 3] 0 (by decide) (by decide)⟩

/-- C10: whenever the list length is positive and the current selection (if
any) is below the length, each of the Home, End, ArrowUp, and ArrowDown
branches of the `list` key handler leaves the selection unchanged or sets
it to some index strictly below the length. -/
theorem c10_selection_in_range (key : ListKey) (length : Nat)
    (sel : Option Nat) (hpos : 0 < length)
    (hsel : ∀ i, sel = some i → i < length) :
    listKeyDown length sel key = sel ∨
      ∃ j, listKeyDown length sel key = some j ∧ j < length := by
  cases key with
  | home =>
    right
    exact ⟨0, by simp [listKeyDown, hpos], hpos⟩
  | endKey =>
    right
    exact ⟨length - 1, by simp [listKeyDown, hpos], by omega⟩
  | arrowUp =>
    cases sel with
    | none =>
      right
      exact ⟨length - 1, by simp [listKeyDown, hpos], by omega⟩
    | some i =>
      by_cases hi : i > 0
      · right
        refine ⟨i - 1, by simp [listKeyDown, hi], ?_⟩
        have := hsel i rfl
        omega
      · left
        simp [listKeyDown, hi]
  | arrowDown =>
    cases sel with
    | none =>
      right
      exact ⟨0, by simp [listKeyDown, hpos], hpos⟩
    | some i =>
      by_cases hi : i < length - 1
      · right
        exact ⟨i + 1, by simp [listKeyDown, hi], by omega⟩
      · left
        simp [listKeyDown, hi]

theorem c10_selection_in_range_witness :
    (0 : Nat) < 2 ∧ (∀ i, (some 0 : Option Nat) = some i → i < 2) ∧
    (listKeyDown 2 (some 0) ListKey.arrowDown = some 0 ∨
      ∃ j, listKeyDown 2 (some 0) ListKey.arrowDown = some j ∧ j < 2) :=
  ⟨by decide,
    fun i hi => by
      injection hi with h
      omega,
    c10_selection_in_range ListKey.arrowDown 2 (some 0) (by decide)
      (fun i hi => by
        injection hi with h
        omega)⟩
